import Mathlib

/-!
# Verification of the `structures` growable-array crate

A shallow embedding of `src/array/mod.rs`, `src/array/iter.rs` and
`src/array/drain.rs`. The Rust `Array<T, A>` keeps a length `len`, a raw
buffer of capacity `buf.len()` whose prefix `[0, len)` is initialized, and
an allocator. We model the initialized prefix as a Lean `List T` (`data`),
the buffer capacity as `cap : Nat`, and record every call issued to the
allocation strategy in an explicit log. The element size `size_of::<T>()`
is a parameter `szT : Nat`, since the Rust code branches on it.
-/

namespace Structures

/-- A call to one of the four allocation-strategy primitives
(`allocate`, `grow`, `shrink`, `deallocate`). -/
inductive AllocCall where
  | allocate
  | grow
  | shrink
  | deallocate
deriving DecidableEq, Repr

/-- Model of `Array<T, A>`: `data` is the initialized prefix `[0, len)` of
the buffer (so `data.length` plays the role of the `len` field), and `cap`
is `buf.len()`, the buffer's capacity in elements. -/
structure ArrayM (T : Type) where
  data : List T
  cap : Nat
deriving DecidableEq, Repr

/-- The largest `usize` value, `usize::MAX` on a 64-bit target. -/
def usizeMax : Nat := 2 ^ 64 - 1

/-- `Array::new_in`: length 0; capacity `usize::MAX` for a zero-size
element type, 0 otherwise; no allocation happens. -/
def newM (szT : Nat) (T : Type) : ArrayM T :=
  { data := [], cap := if szT = 0 then usizeMax else 0 }

/-- `usize::next_power_of_two`: the least power of two that is `≥ n`
(1 when `n = 0`). -/
def nextPow2 (n : Nat) : Nat := 2 ^ Nat.clog 2 n

/-- `Array::reserve(additional)`: if the capacity already covers
`len + additional` this is a no-op; otherwise the buffer grows to the next
power of two, via `allocate` when the buffer was empty (capacity 0) and via
`grow` otherwise (`grow_to_cap`). -/
def reserveM (a : ArrayM T) (additional : Nat) : ArrayM T × List AllocCall :=
  let newMin := a.data.length + additional
  if a.cap ≥ newMin then (a, [])
  else
    let newCap := nextPow2 newMin
    if a.cap = 0 then ({ a with cap := newCap }, [AllocCall.allocate])
    else ({ a with cap := newCap }, [AllocCall.grow])

/-- `Array::push`: `reserve(1)`, then write the value into the first free
slot and increment `len` (`push_within_capacity_unchecked`). -/
def pushM (v : T) (a : ArrayM T) : ArrayM T × List AllocCall :=
  let r := reserveM a 1
  ({ r.1 with data := r.1.data ++ [v] }, r.2)

/-- `Array::push_within_capacity`: fails returning the value when
`len == buf.len()`; otherwise writes without allocating. -/
def pushWithinCapacityM (v : T) (a : ArrayM T) : Except T Unit × ArrayM T :=
  if a.data.length = a.cap then (Except.error v, a)
  else (Except.ok (), { a with data := a.data ++ [v] })

/-- `Array::pop`: returns `None` on an empty array, otherwise decrements
`len` and reads out the element at the new `len` (the last element). -/
def popM (a : ArrayM T) : Option T × ArrayM T :=
  if a.data.isEmpty then (none, a)
  else (a.data.getLast?, { a with data := a.data.dropLast })

/-- `Array::remove(idx)`: `None` when `idx ≥ len`; otherwise reads the
element at `idx` and copies the elements above it down by one
(`ptr::copy` of `len - 1 - idx` elements). -/
def removeM (idx : Nat) (a : ArrayM T) : Option T × ArrayM T :=
  if idx ≥ a.data.length then (none, a)
  else (a.data[idx]?, { a with data := a.data.eraseIdx idx })

/-- `Array::insert(idx, value)`: fails returning the value when
`idx > len`; otherwise reserves one slot, increments `len`, and runs
`ptr::copy(insert_at, insert_at.add(1), self.len - idx)` — the count is
taken after the increment, so it is `len_old + 1 - idx`, one more than
the `len_old - idx` initialized elements, and the copy's highest
destination slot is index `len_old + 1`. When the post-reserve capacity
is exactly `len_old + 1` that slot lies past the end of the buffer: an
out-of-bounds heap write, i.e. undefined behavior, modelled as `none`.
Otherwise the write stays inside the buffer past the initialized prefix
and the observable prefix becomes the splice `take idx ++ v :: drop idx`
after the value is written into the freed slot. -/
def insertM (idx : Nat) (v : T) (a : ArrayM T) : Option (Except T Unit × ArrayM T) :=
  if idx > a.data.length then some (Except.error v, a)
  else
    let r := reserveM a 1
    if a.data.length + 1 < r.1.cap then
      some (Except.ok (), { r.1 with data := a.data.take idx ++ v :: a.data.drop idx })
    else none

/-- `Array::swap_remove(idx)`: `None` when `idx ≥ len`; otherwise reads
the element at `idx`, overwrites the slot with the last element, and
decrements `len`. -/
def swapRemoveM (idx : Nat) (a : ArrayM T) : Option T × ArrayM T :=
  if h : idx ≥ a.data.length then (none, a)
  else
    (a.data[idx]?,
     { a with data := (a.data.set idx (a.data.getLast (by
         intro hnil; simp [hnil] at h))).dropLast })

/-- `Array::shrink_to_fit`: a no-op for zero-size element types and when
`len == buf.len()`; otherwise shrinks the buffer to exactly `len` via the
strategy's `shrink` primitive. -/
def shrinkToFitM (szT : Nat) (a : ArrayM T) : ArrayM T × List AllocCall :=
  if szT = 0 then (a, [])
  else if a.data.length = a.cap then (a, [])
  else ({ a with cap := a.data.length }, [AllocCall.shrink])

/-- `Extend::extend` / `FromIterator::from_iter`: push every element of
the input sequence in order onto the array. -/
def pushAllM (l : List T) (a : ArrayM T) : ArrayM T :=
  l.foldl (fun acc v => (pushM v acc).1) a

/-- `Array::from_iter` (collect): extend a fresh `Array::new()` with the
input sequence. -/
def collectM (szT : Nat) (l : List T) : ArrayM T :=
  pushAllM l (newM szT T)

/-- Repeated `pop`: perform `n` pops, collecting the returned values in
order; stops early if a pop signals emptiness. -/
def popN : Nat → ArrayM T → List T × ArrayM T
  | 0, a => ([], a)
  | n + 1, a =>
    match popM a with
    | (none, a') => ([], a')
    | (some v, a') =>
      let r := popN n a'
      (v :: r.1, r.2)

/-- The contiguous sub-sequence of `l` at the half-open index range
`[a, b)`. -/
def slice (a b : Nat) (l : List T) : List T := (l.drop a).take (b - a)

/-! ## The owning iterator (`src/array/iter.rs`)

`IntoIter<T, A>` holds the moved-in array (`storage`) and a `start`
cursor; `storage.len` doubles as the end cursor for backward consumption.
The buffer contents are never overwritten by iteration, only the cursors
move, so the model keeps the full buffer contents from `into_iter` time
in `buf` and tracks `start` and `len`. -/

/-- Model of `IntoIter<T, A>`: `buf` is the initialized contents of the
owned buffer at `into_iter` time, `start` the forward cursor, `len` the
owned array's `len` field (the backward cursor). Live elements are those
at indices `[start, len)`. -/
structure IterState (T : Type) where
  buf : List T
  start : Nat
  len : Nat
deriving DecidableEq, Repr

/-- `Array::into_iter`: take ownership of the storage, with the forward
cursor at 0. -/
def intoIterM (a : ArrayM T) : IterState T :=
  { buf := a.data, start := 0, len := a.data.length }

/-- `IntoIter::next`: `None` when `start ≥ storage.len`, otherwise read
the element at `start` and advance `start`. -/
def intoIterNext (st : IterState T) : Option T × IterState T :=
  if st.start ≥ st.len then (none, st)
  else (st.buf[st.start]?, { st with start := st.start + 1 })

/-- `IntoIter::next_back`: `None` when `start ≥ storage.len`, otherwise
`pop_unchecked`: decrement `len` and read the element at the new `len`. -/
def intoIterNextBack (st : IterState T) : Option T × IterState T :=
  if st.start ≥ st.len then (none, st)
  else (st.buf[st.len - 1]?, { st with len := st.len - 1 })

/-- `IntoIter::nth(n)`: advance `start` by `n` saturating at `len`,
dropping each skipped element in place (the middle component lists them),
then perform a `next`. -/
def intoIterNth (n : Nat) (st : IterState T) : Option T × List T × IterState T :=
  let newStart := Nat.min (st.start + n) st.len
  let dropped := slice st.start newStart st.buf
  let r := intoIterNext { st with start := newStart }
  (r.1, dropped, r.2)

/-- `IntoIter::nth_back(n)`: retreat `storage.len` by `n` saturating at
`start`, dropping each skipped element in place (the middle component
lists them), then perform a `next` — the source really calls `next`, the
forward step, at this point. -/
def intoIterNthBack (n : Nat) (st : IterState T) : Option T × List T × IterState T :=
  let newLen := Nat.max (st.len - n) st.start
  let dropped := slice newLen st.len st.buf
  let r := intoIterNext { st with len := newLen }
  (r.1, dropped, r.2)

/-- Fully consume an iterator forward: `fuel` bounds the number of `next`
steps; collection stops at the first `None`. -/
def consumeFwd : Nat → IterState T → List T
  | 0, _ => []
  | n + 1, st =>
    match intoIterNext st with
    | (some v, st') => v :: consumeFwd n st'
    | (none, _) => []

/-- Fully consume an iterator backward: `fuel` bounds the number of
`next_back` steps; collection stops at the first `None`. -/
def consumeBwd : Nat → IterState T → List T
  | 0, _ => []
  | n + 1, st =>
    match intoIterNextBack st with
    | (some v, st') => v :: consumeBwd n st'
    | (none, _) => []

/-! ## Drain (`src/array/drain.rs`) -/

/-- Model of `Drain<'d, T, A>`: `buf` is the borrowed array's initialized
contents (length = the array's `len` at creation); `hole_start`/`hole_end`
delimit the range being removed, and `start`/`end_` (the source's `start`
and `end` fields) the shrinking window of not-yet-yielded elements. -/
structure DrainM (T : Type) where
  buf : List T
  hole_start : Nat
  hole_end : Nat
  start : Nat
  end_ : Nat
deriving DecidableEq, Repr

/-- `Array::drain` with the range bounds already resolved to a half-open
pair `[s, e)`: panics (modelled as `none`) when `s ≥ len` or `e > len`;
otherwise all four cursors are initialized from the range. -/
def mkDrain (data : List T) (s e : Nat) : Option (DrainM T) :=
  if s ≥ data.length then none
  else if e > data.length then none
  else some { buf := data, hole_start := s, hole_end := e, start := s, end_ := e }

/-- The documented `Drain` cursor invariant:
`hole_start ≤ start ≤ end ≤ hole_end ≤ original_len`. -/
def DrainInv (d : DrainM T) : Prop :=
  d.hole_start ≤ d.start ∧ d.start ≤ d.end_ ∧ d.end_ ≤ d.hole_end ∧
    d.hole_end ≤ d.buf.length

/-- `Drain::next`: `None` when `start ≥ end`, otherwise read the element
at `start` and advance `start`. -/
def drainNext (d : DrainM T) : Option T × DrainM T :=
  if d.start ≥ d.end_ then (none, d)
  else (d.buf[d.start]?, { d with start := d.start + 1 })

/-- `Drain::nth(n)`: drop in place the first `min n (end - start)`
elements of the window, advancing `start` past each (the middle component
lists them), then perform a `next`. -/
def drainNth (n : Nat) (d : DrainM T) : Option T × List T × DrainM T :=
  let k := Nat.min n (d.end_ - d.start)
  let dropped := slice d.start (d.start + k) d.buf
  let r := drainNext { d with start := d.start + k }
  (r.1, dropped, r.2)

/-- `Drain::next_back` exactly as written in the source: `None` when
`start ≥ end`; otherwise it first INCREMENTS `end` (`self.end += 1`) and
then reads the element at the incremented `end` — index `end + 1` of the
original window state. -/
def drainNextBack (d : DrainM T) : Option T × DrainM T :=
  if d.start ≥ d.end_ then (none, d)
  else (d.buf[d.end_ + 1]?, { d with end_ := d.end_ + 1 })

/-- `ptr::copy` of `src` into the buffer `dst` starting at index `i`:
positions `[i, i + src.length)` are overwritten, the rest kept. -/
def overwriteAt (i : Nat) (src dst : List T) : List T :=
  dst.take i ++ src ++ dst.drop (i + src.length)

/-- `Drop for Drain`: the array's `len` is first pulled down to
`hole_start`; the still-unyielded window `[start, end)` is dropped in
place (second component); the tail `[hole_end, full_len)` is copied down
to `hole_start`; and `len` becomes `hole_start + (full_len - hole_end)`.
The first component is the final initialized prefix of the array. -/
def drainDrop (d : DrainM T) : List T × List T :=
  let fullLen := d.buf.length
  let count := fullLen - d.hole_end
  let dropped := slice d.start d.end_ d.buf
  let copied := overwriteAt d.hole_start (d.buf.drop d.hole_end) d.buf
  (copied.take (d.hole_start + count), dropped)

/-! ## Whole-lifecycle sessions (for the zero-size-type claim) -/

/-- One mutating operation in an `Array` session. -/
inductive ArrOp (T : Type) where
  | push (v : T)
  | pop
  | shrinkToFit
deriving DecidableEq, Repr

/-- Run one operation, returning the new state and the allocation calls
it issued. -/
def execOp (szT : Nat) (op : ArrOp T) (a : ArrayM T) : ArrayM T × List AllocCall :=
  match op with
  | ArrOp.push v => pushM v a
  | ArrOp.pop => ((popM a).2, [])
  | ArrOp.shrinkToFit => shrinkToFitM szT a

/-- Run a list of operations in order, concatenating the allocation-call
logs. -/
def execOps (szT : Nat) : List (ArrOp T) → ArrayM T → ArrayM T × List AllocCall
  | [], a => (a, [])
  | op :: rest, a =>
    let r := execOp szT op a
    let r' := execOps szT rest r.1
    (r'.1, r.2 ++ r'.2)

/-- The allocation calls issued by destroying the array
(`Drop for Array` defers to `Drop for IntoIter`): the remaining elements
are dropped via `nth(usize::MAX)` — no allocation calls — and then, unless
the element type has zero size, the buffer is released with one
`deallocate`. -/
def dropLog (szT : Nat) : List AllocCall :=
  if szT = 0 then [] else [AllocCall.deallocate]

/-- A whole lifecycle: construction (`new`), the given operations, then
destruction. Returns the state just before destruction and every
allocation call issued during the session. -/
def runSession (szT : Nat) (T : Type) (ops : List (ArrOp T)) :
    ArrayM T × List AllocCall :=
  let r := execOps szT ops (newM szT T)
  (r.1, r.2 ++ dropLog szT)

/-- One step of the reference stack semantics: `push` appends, `pop`
removes the last element (no-op when empty), `shrink_to_fit` leaves the
elements alone. -/
def stackStep (l : List T) (op : ArrOp T) : List T :=
  match op with
  | ArrOp.push v => l ++ [v]
  | ArrOp.pop => l.dropLast
  | ArrOp.shrinkToFit => l

/-- Reference stack semantics for a whole session's operations. -/
def stackRef (T : Type) (ops : List (ArrOp T)) : List T :=
  ops.foldl stackStep []

/-! ## Retain (`Array::retain` in `src/array/mod.rs`)

The predicate is modelled as `T → Option Bool`: `some b` is a normal
return of `b`, `none` is an abrupt termination (panic) at that element.
`retainModel` returns the kept prefix (the elements at `[0, write)` when
control leaves the loop — the final `len`) and the list of elements
dropped in place exactly once: rejected elements are dropped by the loop,
and on abrupt termination the `DropGuard` drops everything from the
current read position to the original `len`. -/

/-- Observable effect of the `retain` loop together with its `DropGuard`:
first component = elements surviving in the array, second = elements
dropped in place. -/
def retainModel (p : T → Option Bool) : List T → List T × List T
  | [] => ([], [])
  | x :: rest =>
    match p x with
    | none => ([], x :: rest)
    | some true =>
      let r := retainModel p rest
      (x :: r.1, r.2)
    | some false =>
      let r := retainModel p rest
      (r.1, x :: r.2)

/-- `Array::retain(pred)` on the model state: the array keeps the kept
elements (its `len` becomes the write cursor), the second component lists
the elements dropped in place. -/
def retainM (p : T → Option Bool) (a : ArrayM T) : ArrayM T × List T :=
  let r := retainModel p a.data
  ({ a with data := r.1 }, r.2)

/-! ## Helper lemmas -/

lemma reserveM_fst_data (a : ArrayM T) (n : Nat) : (reserveM a n).1.data = a.data := by
  unfold reserveM
  dsimp only
  split
  · rfl
  · split <;> rfl

lemma pushM_fst (v : T) (a : ArrayM T) :
    (pushM v a).1 = { data := a.data ++ [v], cap := (reserveM a 1).1.cap } := by
  unfold pushM
  dsimp only
  rw [ArrayM.mk.injEq]
  exact ⟨by rw [reserveM_fst_data], rfl⟩

lemma pushAllM_data : ∀ (l : List T) (a : ArrayM T),
    (pushAllM l a).data = a.data ++ l := by
  intro l
  induction l with
  | nil => intro a; simp [pushAllM]
  | cons x xs ih =>
    intro a
    show (pushAllM xs (pushM x a).1).data = a.data ++ x :: xs
    rw [ih, pushM_fst]
    simp

lemma popM_snd (a : ArrayM T) : (popM a).2 = { a with data := a.data.dropLast } := by
  unfold popM
  split
  · rename_i h
    rw [List.isEmpty_iff] at h
    cases a
    simp_all
  · rfl

lemma popN_all : ∀ (n : Nat) (a : ArrayM T), a.data.length = n →
    popN n a = (a.data.reverse, { a with data := [] }) := by
  intro n
  induction n with
  | zero =>
    intro a h
    rw [List.length_eq_zero] at h
    cases a
    simp_all [popN]
  | succ n ih =>
    intro a h
    have hne : a.data ≠ [] := by
      intro hnil
      rw [hnil] at h
      simp at h
    have hpop : popM a = (some (a.data.getLast hne), { a with data := a.data.dropLast }) := by
      unfold popM
      rw [if_neg (by simpa [List.isEmpty_iff] using hne), List.getLast?_eq_getLast _ hne]
    have hlen : ({ a with data := a.data.dropLast } : ArrayM T).data.length = n := by
      simp [List.length_dropLast, h]
    show (match popM a with
      | (none, a') => ([], a')
      | (some v, a') => ((v :: (popN n a').1, (popN n a').2) : List T × ArrayM T)) =
      (a.data.reverse, { a with data := [] })
    rw [hpop]
    dsimp only
    rw [ih _ hlen]
    dsimp only
    rw [Prod.mk.injEq]
    refine ⟨?_, rfl⟩
    conv_rhs => rw [← List.dropLast_append_getLast hne]
    rw [List.reverse_append]
    rfl

/-- C8: pushing the values of `l` in order onto a fresh array and then
popping `l.length` times returns exactly `l.reverse` and leaves the array
empty; `pop` on an empty array returns `none` and changes nothing. -/
theorem push_pop_reverse_order {T : Type} (szT : Nat) (l : List T) :
    (popN l.length (pushAllM l (newM szT T))).1 = l.reverse ∧
    (popN l.length (pushAllM l (newM szT T))).2.data = [] ∧
    (∀ cap : Nat, popM ({ data := [], cap := cap } : ArrayM T) =
      (none, { data := [], cap := cap })) := by
  have hdata : (pushAllM l (newM szT T)).data = l := by
    rw [pushAllM_data]
    rfl
  have hrun := popN_all (T := T) l.length (pushAllM l (newM szT T)) (by rw [hdata])
  refine ⟨?_, ?_, ?_⟩
  · rw [hrun, hdata]
  · rw [hrun]
  · intro cap
    rfl

/-- C10: each operation with a recoverable failure — `pop` on an empty
array, `remove`/`swap_remove` at `idx ≥ len`, `insert` at `idx > len`,
`push_within_capacity` at `len = cap` — signals the failure and returns
the array completely unchanged (same elements, length and capacity). -/
theorem failed_ops_leave_unchanged {T : Type} :
    (∀ a : ArrayM T, a.data.length = 0 → popM a = (none, a)) ∧
    (∀ (a : ArrayM T) (idx : Nat), idx ≥ a.data.length →
      removeM idx a = (none, a)) ∧
    (∀ (a : ArrayM T) (idx : Nat), idx ≥ a.data.length →
      swapRemoveM idx a = (none, a)) ∧
    (∀ (a : ArrayM T) (idx : Nat) (v : T), idx > a.data.length →
      insertM idx v a = some (Except.error v, a)) ∧
    (∀ (a : ArrayM T) (v : T), a.data.length = a.cap →
      pushWithinCapacityM v a = (Except.error v, a)) := by
  refine ⟨?_, ?_, ?_, ?_, ?_⟩
  · intro a h
    unfold popM
    rw [if_pos (by simpa [List.isEmpty_iff, List.length_eq_zero] using h)]
  · intro a idx h
    unfold removeM
    rw [if_pos h]
  · intro a idx h
    unfold swapRemoveM
    rw [dif_pos h]
  · intro a idx v h
    unfold insertM
    rw [if_pos h]
  · intro a v h
    unfold pushWithinCapacityM
    rw [if_pos h]

/-- Witness for C10 at concrete arrays. -/
theorem failed_ops_leave_unchanged_witness :
    popM ({ data := [], cap := 0 } : ArrayM Nat) =
      (none, { data := [], cap := 0 }) ∧
    removeM 1 ({ data := [5], cap := 1 } : ArrayM Nat) =
      (none, { data := [5], cap := 1 }) ∧
    swapRemoveM 1 ({ data := [5], cap := 1 } : ArrayM Nat) =
      (none, { data := [5], cap := 1 }) ∧
    insertM 2 7 ({ data := [5], cap := 1 } : ArrayM Nat) =
      some (Except.error 7, { data := [5], cap := 1 }) ∧
    pushWithinCapacityM 7 ({ data := [5], cap := 1 } : ArrayM Nat) =
      (Except.error 7, { data := [5], cap := 1 }) :=
  ⟨failed_ops_leave_unchanged.1 _ (by decide),
   failed_ops_leave_unchanged.2.1 _ 1 (by decide),
   failed_ops_leave_unchanged.2.2.1 _ 1 (by decide),
   failed_ops_leave_unchanged.2.2.2.1 _ 2 7 (by decide),
   failed_ops_leave_unchanged.2.2.2.2 _ 7 (by decide)⟩

/-- C3 (defect): on the array `[1,2,3]` with capacity 4 — the exact state
reached by three pushes from `new()`, capacity growing 1, 2, 4 —
`insert(0, 9)` (and likewise `insert(3, 9)`) does not succeed cleanly:
`reserve(1)` is a no-op at capacity 4 and the `ptr::copy` of
`len + 1 - idx` elements writes destination slot 4 of the 4-slot buffer,
an out-of-bounds heap write. With spare capacity (`[1,2]` in a 4-slot
buffer) the insert produces the shifted sequence the claim describes. -/
theorem insert_oob_write :
    insertM 0 9 ({ data := [1, 2, 3], cap := 4 } : ArrayM Nat) = none ∧
    insertM 3 9 ({ data := [1, 2, 3], cap := 4 } : ArrayM Nat) = none ∧
    insertM 0 9 ({ data := [1, 2], cap := 4 } : ArrayM Nat) =
      some (Except.ok (), { data := [9, 1, 2], cap := 4 }) ∧
    insertM 3 9 ({ data := [1, 2], cap := 4 } : ArrayM Nat) =
      some (Except.error 9, { data := [1, 2], cap := 4 }) :=
  ⟨rfl, rfl, rfl, rfl⟩

lemma slice_cons (s len : Nat) (buf : List T) (hs : s < len) (hb : s < buf.length) :
    slice s len buf = buf[s] :: slice (s + 1) len buf := by
  unfold slice
  rw [List.drop_eq_getElem_cons hb]
  have hrw : len - s = (len - (s + 1)) + 1 := by omega
  rw [hrw, List.take_succ_cons]

lemma slice_concat (s len : Nat) (buf : List T) (hs : s < len) (hb : len ≤ buf.length) :
    slice s len buf = slice s (len - 1) buf ++ [buf.get ⟨len - 1, by omega⟩] := by
  unfold slice
  have hrw : len - s = ((len - 1) - s) + 1 := by omega
  rw [hrw, List.take_succ]
  have hget : (buf.drop s)[(len - 1) - s]? = some (buf.get ⟨len - 1, by omega⟩) := by
    rw [List.getElem?_drop]
    have hidx : s + (len - 1 - s) = len - 1 := by omega
    rw [hidx, List.getElem?_eq_getElem (by omega)]
    simp [List.get_eq_getElem]
  rw [hget]
  rfl

lemma consumeFwd_slice : ∀ (fuel : Nat) (buf : List T) (s len : Nat),
    len ≤ buf.length → len - s ≤ fuel →
    consumeFwd fuel ⟨buf, s, len⟩ = slice s len buf := by
  intro fuel
  induction fuel with
  | zero =>
    intro buf s len h1 h2
    have h0 : len - s = 0 := Nat.le_zero.mp h2
    simp [consumeFwd, slice, h0]
  | succ n ih =>
    intro buf s len h1 h2
    by_cases hs : s ≥ len
    · have h0 : len - s = 0 := by omega
      simp [consumeFwd, intoIterNext, hs, slice, h0]
    · push_neg at hs
      have hb : s < buf.length := lt_of_lt_of_le hs h1
      have hnext : intoIterNext (⟨buf, s, len⟩ : IterState T) =
          (some buf[s], ⟨buf, s + 1, len⟩) := by
        unfold intoIterNext
        dsimp only
        rw [if_neg (by omega)]
        rw [List.getElem?_eq_getElem hb]
      show (match intoIterNext (⟨buf, s, len⟩ : IterState T) with
        | (some v, st') => v :: consumeFwd n st'
        | (none, _) => []) = slice s len buf
      rw [hnext]
      dsimp only
      rw [ih buf (s + 1) len h1 (by omega), slice_cons s len buf hs hb]

lemma consumeBwd_slice : ∀ (fuel : Nat) (buf : List T) (s len : Nat),
    len ≤ buf.length → len - s ≤ fuel →
    consumeBwd fuel ⟨buf, s, len⟩ = (slice s len buf).reverse := by
  intro fuel
  induction fuel with
  | zero =>
    intro buf s len h1 h2
    have h0 : len - s = 0 := Nat.le_zero.mp h2
    simp [consumeBwd, slice, h0]
  | succ n ih =>
    intro buf s len h1 h2
    by_cases hs : s ≥ len
    · have h0 : len - s = 0 := by omega
      simp [consumeBwd, intoIterNextBack, hs, slice, h0]
    · push_neg at hs
      have hb : len - 1 < buf.length := by omega
      have hnext : intoIterNextBack (⟨buf, s, len⟩ : IterState T) =
          (some (buf.get ⟨len - 1, hb⟩), ⟨buf, s, len - 1⟩) := by
        unfold intoIterNextBack
        dsimp only
        rw [if_neg (by omega)]
        rw [List.getElem?_eq_getElem hb]
        simp [List.get_eq_getElem]
      show (match intoIterNextBack (⟨buf, s, len⟩ : IterState T) with
        | (some v, st') => v :: consumeBwd n st'
        | (none, _) => []) = (slice s len buf).reverse
      rw [hnext]
      dsimp only
      rw [ih buf s (len - 1) (by omega) (by omega),
        slice_concat s len buf hs h1, List.reverse_append]
      rfl

/-- C7: collecting a finite sequence into an `Array` and fully consuming
the owning iterator forward reproduces the sequence in order; fully
consuming it backward reproduces the exact reverse. -/
theorem collect_consume_roundtrip {T : Type} (szT : Nat) (l : List T) :
    consumeFwd l.length (intoIterM (collectM szT l)) = l ∧
    consumeBwd l.length (intoIterM (collectM szT l)) = l.reverse := by
  have hdata : (collectM szT l).data = l := by
    unfold collectM
    rw [pushAllM_data]
    rfl
  have hiter : intoIterM (collectM szT l) = ⟨l, 0, l.length⟩ := by
    unfold intoIterM
    rw [hdata]
  have hslice : slice 0 l.length l = l := by
    unfold slice
    simp
  rw [hiter, consumeFwd_slice l.length l 0 l.length le_rfl (by omega),
    consumeBwd_slice l.length l 0 l.length le_rfl (by omega), hslice]
  exact ⟨rfl, rfl⟩

lemma slice_drop (s len j : Nat) (buf : List T) :
    (slice s len buf).drop j = slice (s + j) len buf := by
  unfold slice
  rw [List.drop_take, List.drop_drop]
  have h1 : len - s - j = len - (s + j) := by omega
  rw [h1]

lemma intoIterNext_snd_fields (st : IterState T) :
    (intoIterNext st).2.buf = st.buf ∧ (intoIterNext st).2.len = st.len := by
  unfold intoIterNext
  split
  · exact ⟨rfl, rfl⟩
  · exact ⟨rfl, rfl⟩

lemma intoIterNextBack_pos (st : IterState T) (h : st.start < st.len)
    (hb : st.len ≤ st.buf.length) :
    (intoIterNextBack st).1 = st.buf[st.len - 1]? ∧
    ((intoIterNextBack st).1).isSome = true ∧
    (intoIterNextBack st).2 = { st with len := st.len - 1 } := by
  unfold intoIterNextBack
  rw [if_neg (by omega)]
  refine ⟨rfl, ?_, rfl⟩
  dsimp only
  rw [List.getElem?_eq_getElem (by omega)]
  rfl

/-- C5: on an owning iterator with live elements at `[start, len)`,
`nth_back(n)`'s skip phase drops exactly the last `min n (len - start)`
live elements; and a `next_back` performed on the resulting state, when
live elements remain, returns the element at index `len - 1` of the owned
buffer and decrements the owned length by one. -/
theorem into_iter_nth_back_drops_tail {T : Type} (buf : List T) (s len n : Nat)
    (hs : s < len) (hb : len ≤ buf.length) :
    (intoIterNthBack n (⟨buf, s, len⟩ : IterState T)).2.1 =
      (slice s len buf).drop ((len - s) - Nat.min n (len - s)) ∧
    ((intoIterNthBack n (⟨buf, s, len⟩ : IterState T)).2.2.start <
        (intoIterNthBack n (⟨buf, s, len⟩ : IterState T)).2.2.len →
      (intoIterNextBack (intoIterNthBack n (⟨buf, s, len⟩ : IterState T)).2.2).1 =
        buf[(intoIterNthBack n (⟨buf, s, len⟩ : IterState T)).2.2.len - 1]? ∧
      ((intoIterNextBack (intoIterNthBack n (⟨buf, s, len⟩ : IterState T)).2.2).1).isSome
        = true ∧
      (intoIterNextBack (intoIterNthBack n (⟨buf, s, len⟩ : IterState T)).2.2).2.len =
        (intoIterNthBack n (⟨buf, s, len⟩ : IterState T)).2.2.len - 1) := by
  have hfields := intoIterNext_snd_fields
    (⟨buf, s, Nat.max (len - n) s⟩ : IterState T)
  have hmid : (intoIterNthBack n (⟨buf, s, len⟩ : IterState T)).2.2 =
      (intoIterNext (⟨buf, s, Nat.max (len - n) s⟩ : IterState T)).2 := rfl
  constructor
  · show slice (Nat.max (len - n) s) len buf =
      (slice s len buf).drop ((len - s) - Nat.min n (len - s))
    rw [slice_drop]
    have : s + ((len - s) - Nat.min n (len - s)) = Nat.max (len - n) s := by
      simp only [Nat.min_def, Nat.max_def]
      split <;> split <;> omega
    rw [this]
  · intro hlt
    have hbuf : (intoIterNthBack n (⟨buf, s, len⟩ : IterState T)).2.2.buf = buf := by
      rw [hmid]
      exact hfields.1
    have hlen : (intoIterNthBack n (⟨buf, s, len⟩ : IterState T)).2.2.len =
        Nat.max (len - n) s := by
      rw [hmid]
      exact hfields.2
    have hble : (intoIterNthBack n (⟨buf, s, len⟩ : IterState T)).2.2.len ≤
        (intoIterNthBack n (⟨buf, s, len⟩ : IterState T)).2.2.buf.length := by
      rw [hbuf, hlen]
      exact max_le (by omega) (by omega)
    have h := intoIterNextBack_pos _ hlt hble
    refine ⟨?_, h.2.1, ?_⟩
    · rw [h.1, hbuf]
    · rw [h.2.2]

/-- Witness for C5 at a concrete iterator: `[1,2,3,4]`, cursors `0..4`,
skip-backward of 2 drops `[3,4]`; the following backward step returns the
then-last live element and shrinks the length. -/
theorem into_iter_nth_back_drops_tail_witness :
    (intoIterNthBack 2 (⟨[1, 2, 3, 4], 0, 4⟩ : IterState Nat)).2.1 = [3, 4] ∧
    (intoIterNextBack
      (intoIterNthBack 2 (⟨[1, 2, 3, 4], 0, 4⟩ : IterState Nat)).2.2).1 = some 2 ∧
    (intoIterNextBack
      (intoIterNthBack 2 (⟨[1, 2, 3, 4], 0, 4⟩ : IterState Nat)).2.2).2.len = 1 := by
  have h := into_iter_nth_back_drops_tail [1, 2, 3, 4] 0 4 2 (by decide) (by decide)
  have h2 := h.2 (by decide)
  exact ⟨h.1.trans (by decide), h2.1.trans (by decide), h2.2.2.trans (by decide)⟩

lemma slice_append (a b c : Nat) (buf : List T) (hab : a ≤ b) (hbc : b ≤ c) :
    slice a b buf ++ slice b c buf = slice a c buf := by
  unfold slice
  have h1 : buf.drop b = (buf.drop a).drop (b - a) := by
    rw [List.drop_drop]
    congr 1
    omega
  rw [h1, ← List.take_add]
  congr 1
  omega

lemma overwriteAt_take (i : Nat) (src dst : List T) (h : i ≤ dst.length) :
    (overwriteAt i src dst).take (i + src.length) = dst.take i ++ src := by
  unfold overwriteAt
  have hlen : (dst.take i ++ src).length = i + src.length := by
    simp [List.length_take, Nat.min_eq_left h]
  exact List.take_left' hlen

lemma drainNext_inv (d : DrainM T) (h : DrainInv d) : DrainInv (drainNext d).2 := by
  obtain ⟨h1, h2, h3, h4⟩ := h
  unfold drainNext
  split
  · exact ⟨h1, h2, h3, h4⟩
  · rename_i hlt
    refine ⟨?_, ?_, ?_, ?_⟩ <;> dsimp only <;> omega

lemma drainNth_inv (n : Nat) (d : DrainM T) (h : DrainInv d) :
    DrainInv (drainNth n d).2.2 := by
  obtain ⟨h1, h2, h3, h4⟩ := h
  have hk : Nat.min n (d.end_ - d.start) ≤ d.end_ - d.start :=
    Nat.min_le_right _ _
  have hmid : DrainInv (⟨d.buf, d.hole_start, d.hole_end,
      d.start + Nat.min n (d.end_ - d.start), d.end_⟩ : DrainM T) := by
    refine ⟨?_, ?_, ?_, ?_⟩ <;> dsimp only <;> omega
  exact drainNext_inv _ hmid

lemma drainDrop_fst (d : DrainM T) (h : DrainInv d) :
    (drainDrop d).1 = d.buf.take d.hole_start ++ d.buf.drop d.hole_end := by
  obtain ⟨h1, h2, h3, h4⟩ := h
  show (overwriteAt d.hole_start (d.buf.drop d.hole_end) d.buf).take
      (d.hole_start + (d.buf.length - d.hole_end)) =
    d.buf.take d.hole_start ++ d.buf.drop d.hole_end
  have hsrc : (d.buf.drop d.hole_end).length = d.buf.length - d.hole_end :=
    List.length_drop _ _
  rw [← hsrc]
  exact overwriteAt_take _ _ _ (by omega)

/-- C1: a `Drain` built over a valid range satisfies the cursor invariant,
forward consumption (`next`, `nth`) preserves it, and destroying any
invariant-satisfying `Drain` leaves the array as the original with
`[hole_start, hole_end)` excised — the tail shifted down to `hole_start`,
`len = hole_start + (original_len - hole_end)` — while dropping in place
exactly the unyielded window `[start, end)`; together with the already
consumed `[hole_start, start)` and `[end, hole_end)` these partition the
original hole, so each hole element leaves the array exactly once. -/
theorem drain_drop_resolves_hole {T : Type} :
    (∀ (data : List T) (s e : Nat), s < data.length → s ≤ e → e ≤ data.length →
      mkDrain data s e = some ⟨data, s, e, s, e⟩ ∧
      DrainInv (⟨data, s, e, s, e⟩ : DrainM T)) ∧
    (∀ d : DrainM T, DrainInv d → DrainInv (drainNext d).2) ∧
    (∀ (n : Nat) (d : DrainM T), DrainInv d → DrainInv (drainNth n d).2.2) ∧
    (∀ d : DrainM T, DrainInv d →
      (drainDrop d).1 = d.buf.take d.hole_start ++ d.buf.drop d.hole_end ∧
      (drainDrop d).1.length = d.hole_start + (d.buf.length - d.hole_end) ∧
      (drainDrop d).2 = slice d.start d.end_ d.buf ∧
      slice d.hole_start d.start d.buf ++ slice d.start d.end_ d.buf ++
        slice d.end_ d.hole_end d.buf = slice d.hole_start d.hole_end d.buf) := by
  refine ⟨?_, drainNext_inv, drainNth_inv, ?_⟩
  · intro data s e hs hse he
    constructor
    · unfold mkDrain
      rw [if_neg (by omega), if_neg (by omega)]
    · exact ⟨le_refl s, hse, le_refl e, he⟩
  · intro d h
    obtain ⟨h1, h2, h3, h4⟩ := h
    refine ⟨drainDrop_fst d ⟨h1, h2, h3, h4⟩, ?_, rfl, ?_⟩
    · rw [drainDrop_fst d ⟨h1, h2, h3, h4⟩]
      simp only [List.length_append, List.length_take, List.length_drop]
      rw [Nat.min_eq_left (by omega)]
    · rw [slice_append d.hole_start d.start d.end_ d.buf h1 h2,
        slice_append d.hole_start d.end_ d.hole_end d.buf (by omega) h3]

/-- Witness for C1: a drain of `[1, 3)` over `[0,1,2,3,4]`, also observed
after one forward step, resolves correctly on destruction. -/
theorem drain_drop_resolves_hole_witness :
    mkDrain [0, 1, 2, 3, 4] 1 3 = some ⟨[0, 1, 2, 3, 4], 1, 3, 1, 3⟩ ∧
    DrainInv (⟨[0, 1, 2, 3, 4], 1, 3, 1, 3⟩ : DrainM Nat) ∧
    DrainInv (drainNext (⟨[0, 1, 2, 3, 4], 1, 3, 1, 3⟩ : DrainM Nat)).2 ∧
    DrainInv (drainNth 1 (⟨[0, 1, 2, 3, 4], 1, 3, 1, 3⟩ : DrainM Nat)).2.2 ∧
    (drainDrop (⟨[0, 1, 2, 3, 4], 1, 3, 2, 3⟩ : DrainM Nat)).1 = [0, 3, 4] ∧
    (drainDrop (⟨[0, 1, 2, 3, 4], 1, 3, 2, 3⟩ : DrainM Nat)).1.length = 3 ∧
    (drainDrop (⟨[0, 1, 2, 3, 4], 1, 3, 2, 3⟩ : DrainM Nat)).2 = [2] ∧
    slice 1 2 [0, 1, 2, 3, 4] ++ slice 2 3 [0, 1, 2, 3, 4] ++
      slice 3 3 [0, 1, 2, 3, 4] = slice 1 3 [0, 1, 2, 3, 4] := by
  have hmk := drain_drop_resolves_hole.1 [0, 1, 2, 3, 4] 1 3
    (by decide) (by decide) (by decide)
  have hinv1 : DrainInv (⟨[0, 1, 2, 3, 4], 1, 3, 2, 3⟩ : DrainM Nat) :=
    ⟨by decide, by decide, by decide, by decide⟩
  have hdrop := drain_drop_resolves_hole.2.2.2 _ hinv1
  exact ⟨hmk.1, hmk.2,
    drain_drop_resolves_hole.2.1 _ hmk.2,
    drain_drop_resolves_hole.2.2.1 1 _ hmk.2,
    hdrop.1.trans (by decide), hdrop.2.1.trans (by decide),
    hdrop.2.2.1.trans (by decide), hdrop.2.2.2⟩

/-- C2 (defect): on the drain state with window `start = 0, end = 2` over
buffer `[10,20,30,40]` (hole `[0,2)`), one `next_back` step returns the
element at index 3 — `end + 1`, an element of the surviving tail — and
moves the `end` cursor up to 3, instead of returning the element at
`end - 1 = 1` (the value 20) and retreating `end` to 1 as specified. -/
theorem drain_next_back_reads_past_end :
    drainNextBack (⟨[10, 20, 30, 40], 0, 2, 0, 2⟩ : DrainM Nat) =
      (some 40, ⟨[10, 20, 30, 40], 0, 2, 0, 3⟩) ∧
    ¬ ((drainNextBack (⟨[10, 20, 30, 40], 0, 2, 0, 2⟩ : DrainM Nat)).1 = some 20 ∧
       (drainNextBack (⟨[10, 20, 30, 40], 0, 2, 0, 2⟩ : DrainM Nat)).2.end_ = 1) := by
  decide

/-- C4 (defect): `drain` rejects (fatal panic) the full range `[0, 0)` of
an empty array and the empty range `[3, 3)` of a length-3 array, although
neither bound exceeds `len`; a range with `start < len` is accepted. -/
theorem drain_rejects_start_eq_len :
    mkDrain ([] : List Nat) 0 0 = none ∧
    mkDrain ([1, 2, 3] : List Nat) 3 3 = none ∧
    mkDrain ([1, 2, 3] : List Nat) 1 3 ≠ none := by
  decide

/-! ## Retain -/

lemma retainModel_perm (p : T → Option Bool) :
    ∀ l : List T, ((retainModel p l).1 ++ (retainModel p l).2).Perm l := by
  intro l
  induction l with
  | nil => simp [retainModel]
  | cons x rest ih =>
    show ((match p x with
      | none => (([], x :: rest) : List T × List T)
      | some true => ((x :: (retainModel p rest).1, (retainModel p rest).2))
      | some false => ((retainModel p rest).1, x :: (retainModel p rest).2)).1 ++
      (match p x with
      | none => (([], x :: rest) : List T × List T)
      | some true => ((x :: (retainModel p rest).1, (retainModel p rest).2))
      | some false => ((retainModel p rest).1, x :: (retainModel p rest).2)).2).Perm
      (x :: rest)
    rcases hp : p x with _ | b
    · simp
    · cases b
      · dsimp only
        exact List.perm_middle.trans (ih.cons x)
      · dsimp only
        exact (ih.cons x)

lemma retainModel_total (f : T → Bool) :
    ∀ l : List T, retainModel (fun x => some (f x)) l =
      (l.filter f, l.filter fun x => ! f x) := by
  intro l
  induction l with
  | nil => rfl
  | cons x rest ih =>
    show (match some (f x) with
      | none => (([], x :: rest) : List T × List T)
      | some true => ((x :: (retainModel (fun x => some (f x)) rest).1,
          (retainModel (fun x => some (f x)) rest).2))
      | some false => ((retainModel (fun x => some (f x)) rest).1,
          x :: (retainModel (fun x => some (f x)) rest).2)) =
      ((x :: rest).filter f, (x :: rest).filter fun x => ! f x)
    rcases hf : f x
    · rw [ih]
      simp [List.filter_cons, hf]
    · rw [ih]
      simp [List.filter_cons, hf]

lemma retainModel_abort (p : T → Option Bool) (f : T → Bool) (a : T) (l2 : List T)
    (ha : p a = none) :
    ∀ l1 : List T, (∀ x ∈ l1, p x = some (f x)) →
      retainModel p (l1 ++ a :: l2) =
        (l1.filter f, (l1.filter fun x => ! f x) ++ a :: l2) := by
  intro l1
  induction l1 with
  | nil =>
    intro _
    show (match p a with
      | none => (([], a :: l2) : List T × List T)
      | some true => ((a :: (retainModel p l2).1, (retainModel p l2).2))
      | some false => ((retainModel p l2).1, a :: (retainModel p l2).2)) =
      (List.filter f [] , (List.filter (fun x => ! f x) []) ++ a :: l2)
    rw [ha]
    rfl
  | cons x rest ih =>
    intro hall
    have hx : p x = some (f x) := hall x (by simp)
    have hrest : ∀ y ∈ rest, p y = some (f y) := fun y hy => hall y (by simp [hy])
    show (match p x with
      | none => (([], x :: (rest ++ a :: l2)) : List T × List T)
      | some true => ((x :: (retainModel p (rest ++ a :: l2)).1,
          (retainModel p (rest ++ a :: l2)).2))
      | some false => ((retainModel p (rest ++ a :: l2)).1,
          x :: (retainModel p (rest ++ a :: l2)).2)) =
      ((x :: rest).filter f, ((x :: rest).filter fun x => ! f x) ++ a :: l2)
    rw [hx, ih hrest]
    rcases hf : f x
    · simp [List.filter_cons, hf]
    · simp [List.filter_cons, hf]

/-- C6: `retain` with a predicate that answers every element keeps exactly
the elements satisfying it, in their original relative order, and drops in
place exactly the rejected ones; kept and dropped elements together are a
permutation of the original contents (each element is handled exactly
once); if the predicate terminates abruptly at some element, the array is
left with the already-confirmed-kept prefix (its `len`), and everything
from the current read position through the original `len` is dropped. -/
theorem retain_keeps_filter {T : Type} :
    (∀ (f : T → Bool) (a : ArrayM T),
      (retainM (fun x => some (f x)) a).1.data = a.data.filter f ∧
      (retainM (fun x => some (f x)) a).2 = a.data.filter fun x => ! f x) ∧
    (∀ (p : T → Option Bool) (a : ArrayM T),
      ((retainM p a).1.data ++ (retainM p a).2).Perm a.data) ∧
    (∀ (p : T → Option Bool) (f : T → Bool) (x : T) (l1 l2 : List T)
      (cap : Nat), (∀ y ∈ l1, p y = some (f y)) → p x = none →
      (retainM p ({ data := l1 ++ x :: l2, cap := cap } : ArrayM T)).1.data =
        l1.filter f ∧
      (retainM p ({ data := l1 ++ x :: l2, cap := cap } : ArrayM T)).2 =
        (l1.filter fun y => ! f y) ++ x :: l2) := by
  refine ⟨?_, ?_, ?_⟩
  · intro f a
    unfold retainM
    rw [retainModel_total f a.data]
    exact ⟨rfl, rfl⟩
  · intro p a
    exact retainModel_perm p a.data
  · intro p f x l1 l2 cap hall hx
    unfold retainM
    rw [retainModel_abort p f x l2 hx l1 hall]
    exact ⟨rfl, rfl⟩

/-- Witness for C6: `retain` keeping the even values of `[1,2,3,4,5,6]`
yields `[2,4,6]`; aborting at the value 3 keeps `[2]` and drops
`[1, 3, 9, 4]`. -/
theorem retain_keeps_filter_witness :
    (retainM (fun x => some (x % 2 == 0))
      ({ data := [1, 2, 3, 4, 5, 6], cap := 8 } : ArrayM Nat)).1.data =
        [2, 4, 6] ∧
    ((retainM (fun x => if x = 3 then none else some (x % 2 == 0))
      ({ data := [1, 2, 3, 9, 4], cap := 8 } : ArrayM Nat)).1.data ++
     (retainM (fun x => if x = 3 then none else some (x % 2 == 0))
      ({ data := [1, 2, 3, 9, 4], cap := 8 } : ArrayM Nat)).2).Perm
        [1, 2, 3, 9, 4] ∧
    (retainM (fun x => if x = 3 then none else some (x % 2 == 0))
      ({ data := [1, 2, 3, 9, 4], cap := 8 } : ArrayM Nat)).1.data = [2] ∧
    (retainM (fun x => if x = 3 then none else some (x % 2 == 0))
      ({ data := [1, 2, 3, 9, 4], cap := 8 } : ArrayM Nat)).2 = [1, 3, 9, 4] := by
  have h1 := (retain_keeps_filter.1 (fun x : Nat => x % 2 == 0)
    { data := [1, 2, 3, 4, 5, 6], cap := 8 }).1
  have h3 := retain_keeps_filter.2.2
    (fun x : Nat => if x = 3 then none else some (x % 2 == 0))
    (fun x : Nat => x % 2 == 0) 3 [1, 2] [9, 4] 8 (by decide) (by decide)
  exact ⟨h1.trans (by decide),
    retain_keeps_filter.2.1 _ _,
    h3.1.trans (by decide), h3.2.trans (by decide)⟩

/-! ## Zero-size element types -/

lemma execOp_zst {T : Type} (op : ArrOp T) (a : ArrayM T) (hc : a.cap = usizeMax)
    (hl : a.data.length + 1 ≤ usizeMax) :
    execOp 0 op a = (⟨stackStep a.data op, usizeMax⟩, ([] : List AllocCall)) := by
  obtain ⟨d, c⟩ := a
  dsimp only at hc hl
  subst hc
  cases op with
  | push v =>
    show pushM v ⟨d, usizeMax⟩ = _
    have hres : reserveM (⟨d, usizeMax⟩ : ArrayM T) 1 = (⟨d, usizeMax⟩, []) := by
      unfold reserveM
      dsimp only
      rw [if_pos (by omega)]
    unfold pushM
    rw [hres]
    rfl
  | pop =>
    show ((popM (⟨d, usizeMax⟩ : ArrayM T)).2, ([] : List AllocCall)) = _
    rw [popM_snd]
    rfl
  | shrinkToFit =>
    show shrinkToFitM 0 (⟨d, usizeMax⟩ : ArrayM T) = _
    unfold shrinkToFitM
    rw [if_pos rfl]
    rfl

lemma stackStep_length (l : List T) (op : ArrOp T) :
    (stackStep l op).length ≤ l.length + 1 := by
  cases op with
  | push v => simp [stackStep]
  | pop =>
    simp only [stackStep, List.length_dropLast]
    omega
  | shrinkToFit => simp [stackStep]

lemma execOps_zst {T : Type} : ∀ (ops : List (ArrOp T)) (a : ArrayM T),
    a.cap = usizeMax → a.data.length + ops.length ≤ usizeMax →
    (execOps 0 ops a).1.data = ops.foldl stackStep a.data ∧
    (execOps 0 ops a).1.cap = usizeMax ∧
    (execOps 0 ops a).2 = [] := by
  intro ops
  induction ops with
  | nil =>
    intro a hc _
    exact ⟨rfl, hc, rfl⟩
  | cons op rest ih =>
    intro a hc hl
    simp only [List.length_cons] at hl
    have hop := execOp_zst op a hc (by omega)
    have hstep : execOps 0 (op :: rest) a =
        ((execOps 0 rest (execOp 0 op a).1).1,
         (execOp 0 op a).2 ++ (execOps 0 rest (execOp 0 op a).1).2) := rfl
    have hlen := stackStep_length a.data op
    have ih' := ih ⟨stackStep a.data op, usizeMax⟩ rfl (by dsimp only; omega)
    rw [hstep, hop]
    dsimp only
    refine ⟨ih'.1, ih'.2.1, ?_⟩
    rw [ih'.2.2]
    rfl

/-- C9: for a zero-size element type, a whole lifecycle — construction,
any sequence of pushes, pops and `shrink_to_fit` calls (of any length a
`usize` length field can account for), destruction — issues no call at
all to the allocation strategy, while the contents track the reference
stack semantics exactly and the capacity stays `usize::MAX`. -/
theorem zst_session_no_alloc {T : Type} (ops : List (ArrOp T))
    (h : ops.length ≤ usizeMax) :
    (runSession 0 T ops).2 = [] ∧
    (runSession 0 T ops).1.data = stackRef T ops ∧
    (runSession 0 T ops).1.cap = usizeMax := by
  have hx := execOps_zst ops (newM 0 T) rfl (by simpa [newM] using h)
  refine ⟨?_, hx.1, hx.2.1⟩
  show (execOps 0 ops (newM 0 T)).2 ++ dropLog 0 = []
  rw [hx.2.2]
  rfl

/-- Witness for C9: a concrete zero-size-type session with two pushes, a
pop and a `shrink_to_fit` issues no allocation call and ends with one
element. -/
theorem zst_session_no_alloc_witness :
    (runSession 0 Unit
      [ArrOp.push (), ArrOp.push (), ArrOp.pop, ArrOp.shrinkToFit]).2 = [] ∧
    (runSession 0 Unit
      [ArrOp.push (), ArrOp.push (), ArrOp.pop, ArrOp.shrinkToFit]).1.data = [()] ∧
    (runSession 0 Unit
      [ArrOp.push (), ArrOp.push (), ArrOp.pop, ArrOp.shrinkToFit]).1.cap =
      usizeMax := by
  have h := zst_session_no_alloc
    [ArrOp.push (), ArrOp.push (), ArrOp.pop, ArrOp.shrinkToFit] (by decide)
  exact ⟨h.1, h.2.1.trans (by decide), h.2.2⟩

end Structures
